import Mathlib

/-!
Verification development for the mine-calculator repository (src/src/App.jsx).

The calculation engine is shallowly embedded:
* JavaScript numbers are modelled as exact rationals (ℚ).  All rationals are
  finite, so `Number.isFinite` checks from the source are vacuously true in the
  embedding; IEEE rounding, overflow to Infinity, and NaN are outside the model.
* JavaScript values (as they appear in the persisted state document and in the
  numeric-input normalizer) are modelled by the inductive type `JS`:
  numbers, strings, booleans, null, undefined, arrays, and plain objects.
  Plain objects are insertion-ordered association lists, mirroring JS object
  key ordering; real JS objects never hold duplicate keys, which corresponds
  to the `keyNodup` well-formedness predicate below.
* Fallible or defaulting behaviour (`||`, `??`, out-of-table lookups) is
  modelled by total functions that return the same defaults the source does.
-/

namespace MineCalc

/-- A JavaScript value, as needed by the calculator and the migration engine. -/
inductive JS where
  | null : JS
  | undefined : JS
  | bool : Bool → JS
  | num : ℚ → JS
  | str : String → JS
  | arr : List JS → JS
  | obj : List (String × JS) → JS

/-- `isPlainObject(x)`: `x != null && typeof x === "object" && !Array.isArray(x)`. -/
def isPlainObject : JS → Bool
  | .obj _ => true
  | _ => false

/-- JS truthiness: `false`, `0`, `""`, `null`, `undefined` are falsy
(NaN is not representable in the ℚ embedding). -/
def truthy : JS → Bool
  | .null => false
  | .undefined => false
  | .bool b => b
  | .num q => decide (q ≠ 0)
  | .str s => decide (s ≠ "")
  | .arr _ => true
  | .obj _ => true

/-- `a || b` on JS values. -/
def jsOr (a b : JS) : JS := if truthy a then a else b

/-- `a ?? b` on JS values. -/
def jsCoalesce (a b : JS) : JS :=
  match a with
  | .null => b
  | .undefined => b
  | v => v

/-- Property read on an association list; absent keys read as `undefined`. -/
def getKey : List (String × JS) → String → JS
  | [], _ => .undefined
  | kv :: r, k => if kv.1 = k then kv.2 else getKey r k

/-- Whether a key is present in an association list. -/
def hasKey : List (String × JS) → String → Bool
  | [], _ => false
  | kv :: r, k => kv.1 = k || hasKey r k

/-- Property write `out[k] = v`: updates the first binding in place (JS keeps
the original insertion position of an existing key) or appends a new one. -/
def setKey : List (String × JS) → String → JS → List (String × JS)
  | [], k, v => [(k, v)]
  | kv :: r, k, v => if kv.1 = k then (k, v) :: r else kv :: setKey r k v

/-- Property read `s[k]` on a JS value; non-objects read as `undefined`. -/
def getProp : JS → String → JS
  | .obj kvs, k => getKey kvs k
  | _, _ => .undefined

/-- Whether a JS value has an own property `k` (false for non-objects). -/
def hasKeyJS : JS → String → Bool
  | .obj kvs, k => hasKey kvs k
  | _, _ => false

/-- Whether a JS value is `undefined`. -/
def isUndefined : JS → Bool
  | .undefined => true
  | _ => false

/-- Own enumerable entries, as used by object spread and `Object.entries`:
objects yield their bindings, arrays and strings yield index-keyed elements,
primitives yield nothing. -/
def entriesOf : JS → List (String × JS)
  | .obj kvs => kvs
  | .arr xs => xs.enum.map (fun p => (toString p.1, p.2))
  | .str s => s.data.enum.map (fun p => (toString p.1, .str (String.singleton p.2)))
  | _ => []

/-- An object literal that starts from fixed entries and then lays down spread
entries in order (`{k1: v1, ..., ...sp}`). -/
def objLit (init sp : List (String × JS)) : List (String × JS) :=
  sp.foldl (fun acc kv => setKey acc kv.1 kv.2) init

/-- `{...s, k: v}` (also property assignment on a plain object). -/
def objSet (s : JS) (k : String) (v : JS) : JS :=
  .obj (setKey (entriesOf s) k v)

/-- Keys that the patch adds beyond the base (they are appended in patch
order by the merge loop). -/
def newEntries (bs ps : List (String × JS)) : List (String × JS) :=
  ps.filter (fun kv => !(hasKey bs kv.1))

mutual

/-- `deepMerge(base, patch)` from the source: if either side is not a plain
object, return `patch ?? base`; otherwise merge the patch's entries into a
copy of the base, recursing where both sides hold plain objects. -/
def deepMerge : JS → JS → JS
  | .obj bs, .obj ps => .obj (mergeInto bs ps ++ newEntries bs ps)
  | base, .null => base
  | base, .undefined => base
  | _, patch => patch
termination_by a b => sizeOf a + sizeOf b
decreasing_by
  simp_wf
  omega

/-- The value the merge loop stores at a base key `k`: untouched if the patch
lacks `k`; the recursive merge if both sides hold plain objects; otherwise the
patch's value. -/
def mergeVal (v : JS) (ps : List (String × JS)) (k : String) : JS :=
  if h : hasKey ps k then
    (if isPlainObject v && isPlainObject (getKey ps k) then deepMerge v (getKey ps k)
     else getKey ps k)
  else v
termination_by sizeOf v + sizeOf ps
decreasing_by
  simp_wf
  have hlt : sizeOf (getKey ps k) < sizeOf ps := by
    rename_i hobj
    clear hobj
    induction ps with
    | nil => simp [hasKey] at h
    | cons kv r ih =>
      obtain ⟨k1, v1⟩ := kv
      simp only [getKey]
      split
      · simp
        omega
      · rename_i hne
        simp only [hasKey, Bool.or_eq_true, decide_eq_true_eq] at h
        rcases h with h | h
        · exact absurd h hne
        · have := ih h
          simp
          omega
  omega

/-- The merge loop's effect on the keys already present in the base. -/
def mergeInto : List (String × JS) → List (String × JS) → List (String × JS)
  | [], _ => []
  | (k, v) :: rest, ps => (k, mergeVal v ps k) :: mergeInto rest ps
termination_by l ps => sizeOf l + sizeOf ps
decreasing_by
  all_goals simp_wf
  all_goals omega

end

/-- Rendering of a rational as JS renders a number.  Integers print exactly as
JS does; non-integral rationals print in fraction notation (JS prints a
decimal expansion — the difference never affects any property proved here,
since the migration chain only stringifies values it later treats opaquely). -/
def qToString (q : ℚ) : String :=
  if q.den = 1 then toString q.num else toString q.num ++ "/" ++ toString q.den

mutual

/-- `String(x)` conversion. -/
def jsToString : JS → String
  | .str s => s
  | .num q => qToString q
  | .bool b => if b then "true" else "false"
  | .null => "null"
  | .undefined => "undefined"
  | .arr xs => String.intercalate "," (jsToStringArr xs)
  | .obj _ => "[object Object]"

/-- `Array.prototype.toString` stringifies elements, with nullish elements
rendered as the empty string. -/
def jsToStringArr : List JS → List String
  | [] => []
  | .null :: r => "" :: jsToStringArr r
  | .undefined :: r => "" :: jsToStringArr r
  | x :: r => jsToString x :: jsToStringArr r

end

/-- `clamp01` from the source: non-finite maps to 0 (vacuous for ℚ), then
clamp to [0, 1]. -/
def clamp01 (x : ℚ) : ℚ := max 0 (min 1 x)

/-- `netSell(gross, feeRate) = gross * (1 - feeRate)`. -/
def netSell (gross feeRate : ℚ) : ℚ := gross * (1 - feeRate)

/-- `sum(arr) = arr.reduce((a, b) => a + b, 0)`. -/
def sum (l : List ℚ) : ℚ := l.foldl (· + ·) 0

/-- Digit run at the front of a character list. -/
def takeDigits : List Char → List Char × List Char
  | [] => ([], [])
  | c :: cs =>
    if c.isDigit then
      let p := takeDigits cs
      (c :: p.1, p.2)
    else ([], c :: cs)

/-- Numeric value of a digit list (base 10). -/
def digitsToNat (l : List Char) : ℕ :=
  l.foldl (fun a c => a * 10 + (c.toNat - 48)) 0

/-- The exponent part of a decimal literal: empty means exponent 0; otherwise
`e`/`E`, an optional sign, and at least one digit. -/
def parseExpPart : List Char → Option ℤ
  | [] => some 0
  | c :: cs =>
    if c = 'e' ∨ c = 'E' then
      match cs with
      | '+' :: ds => if ds ≠ [] ∧ ds.all Char.isDigit then some (digitsToNat ds) else none
      | '-' :: ds => if ds ≠ [] ∧ ds.all Char.isDigit then some (-(digitsToNat ds : ℤ)) else none
      | ds => if ds ≠ [] ∧ ds.all Char.isDigit then some (digitsToNat ds) else none
    else none

/-- An unsigned decimal literal: digits, an optional fraction, an optional
exponent; at least one digit in the integer or fraction part. -/
def parseUnsignedDec (t : List Char) : Option ℚ :=
  let ip := takeDigits t
  match ip.2 with
  | '.' :: r2 =>
    let fp := takeDigits r2
    if ip.1 = [] ∧ fp.1 = [] then none
    else
      match parseExpPart fp.2 with
      | some e => some (((digitsToNat ip.1 : ℚ) + (digitsToNat fp.1 : ℚ) / (10 ^ fp.1.length)) * (10 : ℚ) ^ e)
      | none => none
  | r =>
    if ip.1 = [] then none
    else
      match parseExpPart r with
      | some e => some ((digitsToNat ip.1 : ℚ) * (10 : ℚ) ^ e)
      | none => none

/-- Value of a hexadecimal digit, if any. -/
def hexDigitVal (c : Char) : Option ℕ :=
  if '0' ≤ c ∧ c ≤ '9' then some (c.toNat - 48)
  else if 'a' ≤ c ∧ c ≤ 'f' then some (c.toNat - 87)
  else if 'A' ≤ c ∧ c ≤ 'F' then some (c.toNat - 55)
  else none

/-- A radix (2/8/16) integer literal after its `0b`/`0o`/`0x` prefix. -/
def parseRadix (base : ℕ) (ds : List Char) : Option ℚ :=
  if ds = [] then none
  else
    ds.foldl
      (fun acc c =>
        match acc, hexDigitVal c with
        | some a, some d => if d < base then some (a * base + d) else none
        | _, _ => none)
      (some 0) |>.map (fun n => (n : ℚ))

/-- `Number(t)` on an already-trimmed, non-empty string, in the ℚ embedding:
`none` stands for a non-finite result (NaN or ±Infinity).  JS results that
overflow the double range to Infinity stay finite here — no claim in scope
exercises such magnitudes. -/
def jsNumberOfTrimmed (t : List Char) : Option ℚ :=
  match t with
  | '0' :: 'x' :: ds => parseRadix 16 ds
  | '0' :: 'X' :: ds => parseRadix 16 ds
  | '0' :: 'o' :: ds => parseRadix 8 ds
  | '0' :: 'O' :: ds => parseRadix 8 ds
  | '0' :: 'b' :: ds => parseRadix 2 ds
  | '0' :: 'B' :: ds => parseRadix 2 ds
  | '+' :: r => if r = "Infinity".data then none else parseUnsignedDec r
  | '-' :: r => if r = "Infinity".data then none else (parseUnsignedDec r).map Neg.neg
  | _ => if t = "Infinity".data then none else parseUnsignedDec t

/-- `toNum(v, fallback)` from the source.  Number inputs pass the
`Number.isFinite` check vacuously in the ℚ embedding; non-number, non-string
inputs fall back; strings are trimmed, the still-being-typed shapes fall
back, and otherwise the numeric parse decides. -/
def toNum (v : JS) (fallback : ℚ) : ℚ :=
  match v with
  | .num q => q
  | .str s =>
    let t := s.trim
    if t = "" then fallback
    else if t = "-" ∨ t = "." ∨ t = "-." then fallback
    else
      match jsNumberOfTrimmed t.data with
      | some n => n
      | none => fallback
  | _ => fallback

/-!  ## The state-migration engine (`migrateState` and its transform chain)  -/

/-- The default `potionRowDetailsOpen` group (also the literal part of the
v0 → v1 patch). -/
def potionRowDefaults : List (String × JS) :=
  [("p100", .bool false), ("p300", .bool false), ("p500", .bool false), ("p700", .bool false)]

/-- The default `feedbacks` container (also the literal part of the v2 → v3
patch). -/
def feedbacksDefaults : List (String × JS) := [("nextId", .num 1), ("items", .arr [])]

/-- The v0 → v1 patch value: `{p100: false, p300: false, p500: false,
p700: false, ...(s.potionRowDetailsOpen || {})}`. -/
def potionRowPatch (s : JS) : JS :=
  .obj (objLit potionRowDefaults
    (entriesOf (jsOr (getProp s "potionRowDetailsOpen") (.obj []))))

/-- The v1 → v2 price normalisation: each entry of the old `prices` value
becomes `{market: String(market ?? "")}`, preferring `market`, then
`grossSell`, then `buy`, then 0. -/
def normalizePrices (oldPrices : JS) : List (String × JS) :=
  (entriesOf oldPrices).map (fun kv =>
    if isPlainObject kv.2 then
      (kv.1, .obj [("market", .str (jsToString (jsCoalesce
        (jsCoalesce (getProp kv.2 "market")
          (jsCoalesce (getProp kv.2 "grossSell")
            (jsCoalesce (getProp kv.2 "buy") (.num 0)))) (.str ""))))])
    else
      (kv.1, .obj [("market", .str (jsToString (jsCoalesce kv.2 (.str ""))))]))

/-- The v2 → v3 patch value: `{nextId: 1, items: [], ...(s.feedbacks || {})}`. -/
def feedbacksPatch (s : JS) : JS :=
  .obj (objLit feedbacksDefaults
    (entriesOf (jsOr (getProp s "feedbacks") (.obj []))))

/-- `Number.isFinite(incoming.schemaVersion) ? incoming.schemaVersion : 0`
(every rational is finite; non-numbers read as 0). -/
def incomingVersionOf (incoming : JS) : ℚ :=
  match getProp incoming "schemaVersion" with
  | .num q => q
  | _ => 0

/-- The `if (incomingVer < 1)` block of `migrateState`: ensure the
`potionRowDetailsOpen` flag group exists. -/
def migrateStep1 (incomingVer : ℚ) (s : JS) : JS :=
  if incomingVer < 1 then objSet s "potionRowDetailsOpen" (potionRowPatch s) else s

/-- The `if (incomingVer < 2)` block of `migrateState`: normalise the old
`prices` shape into `{market}` records and re-merge over the default table. -/
def migrateStep2 (defaults : JS) (incomingVer : ℚ) (s : JS) : JS :=
  if incomingVer < 2 then
    objSet s "prices"
      (deepMerge (getProp defaults "prices")
        (.obj (normalizePrices (jsOr (getProp s "prices") (.obj [])))))
  else s

/-- The `if (incomingVer < 3)` block of `migrateState`: ensure the
`feedbacks` container exists. -/
def migrateStep3 (incomingVer : ℚ) (s : JS) : JS :=
  if incomingVer < 3 then objSet s "feedbacks" (feedbacksPatch s) else s

/-- The `if (incomingVer < 4)` block of `migrateState`: stamp the `adminMode`
default. -/
def migrateStep4 (incomingVer : ℚ) (s : JS) : JS :=
  if incomingVer < 4 then objSet s "adminMode" (.bool false) else s

/-- The body of `migrateState` once `incoming` is fixed: deep-merge with the
defaults, run the version-gated transforms in order, then unconditionally
stamp `schemaVersion` with the defaults' version. -/
def migrateBody (defaults incoming : JS) : JS :=
  objSet
    (migrateStep4 (incomingVersionOf incoming)
      (migrateStep3 (incomingVersionOf incoming)
        (migrateStep2 defaults (incomingVersionOf incoming)
          (migrateStep1 (incomingVersionOf incoming)
            (deepMerge defaults incoming)))))
    "schemaVersion" (getProp defaults "schemaVersion")

/-- `migrateState(raw, defaults)` from the source: a raw value that is not a
plain object migrates as the empty document. -/
def migrateState (raw defaults : JS) : JS :=
  migrateBody defaults (if isPlainObject raw then raw else .obj [])

/-- The default `prices` table from the source. -/
def pricesDefaults : List (String × JS) := [
  ("ingot", .obj [("market", .str "6000")]),
  ("stone", .obj [("market", .str "773")]),
  ("deepCobble", .obj [("market", .str "281")]),
  ("redstone", .obj [("market", .str "97")]),
  ("copper", .obj [("market", .str "100")]),
  ("diamond", .obj [("market", .str "2900")]),
  ("iron", .obj [("market", .str "700")]),
  ("lapis", .obj [("market", .str "100")]),
  ("gold", .obj [("market", .str "570")]),
  ("amethyst", .obj [("market", .str "78")])]

/-- The `defaultState` document from the source (UI-only fields included so
that the migrated document matches the deployed shape field for field). -/
def defaultStateEntries : List (String × JS) := [
  ("schemaVersion", .num 4),
  ("activeMenu", .str "potion"),
  ("feePct", .str "5"),
  ("themeMode", .str "light"),
  ("sageEnhLevel", .num 15),
  ("gemExpertLevel", .num 3),
  ("flamingPickLevel", .num 0),
  ("staminaPerDig", .str "10"),
  ("shardsPerIngot", .str "16"),
  ("ingotGrossPrice", .str "6000"),
  ("gemGrossPrice", .str "12000"),
  ("potionPrices", .obj [("p100", .str "14000"), ("p300", .str "70000"),
    ("p500", .str "160000"), ("p700", .str "210000")]),
  ("potionRowDetailsOpen", .obj potionRowDefaults),
  ("abilityGrossSell", .str "18000"),
  ("lifeGrossSell", .obj [("low", .str "9000"), ("mid", .str "30000"), ("high", .str "60000")]),
  ("prices", .obj pricesDefaults),
  ("modes", .obj [
    ("ingot", .str "opportunity"),
    ("stone", .str "owned"),
    ("deepCobble", .str "owned"),
    ("redstone", .str "owned"),
    ("copper", .str "owned"),
    ("diamond", .str "buy"),
    ("iron", .str "owned"),
    ("lapis", .str "owned"),
    ("gold", .str "owned"),
    ("amethyst", .str "owned")]),
  ("recipes", .obj [
    ("ability", .obj [("ingot", .num 3)]),
    ("low", .obj [("ingot", .num 1), ("stone", .num 2), ("redstone", .num 3), ("copper", .num 8)]),
    ("mid", .obj [("ingot", .num 2), ("deepCobble", .num 2), ("diamond", .num 3),
      ("iron", .num 5), ("lapis", .num 5)]),
    ("high", .obj [("ingot", .num 3), ("diamond", .num 5), ("gold", .num 7),
      ("iron", .num 7), ("amethyst", .num 20), ("copper", .num 30)])]),
  ("feedbacks", .obj feedbacksDefaults),
  ("adminMode", .bool false)
]

/-- The default document as a JS value. -/
def defaultStateJS : JS := .obj defaultStateEntries

/-- Key lists without duplicate entries (a JS object cannot hold two bindings
of the same key). -/
def keyNodup : List String → Bool
  | [] => true
  | k :: r => !(decide (k ∈ r)) && keyNodup r

mutual

/-- A well-formed, JSON-representable document: object keys are pairwise
distinct and `undefined` never occurs as a value, recursively.  Documents that
went through `JSON.parse`/`JSON.stringify` — the only route into
`migrateState` — always satisfy this. -/
def wfJS : JS → Bool
  | .obj kvs => keyNodup (kvs.map Prod.fst) && wfObjList kvs
  | .arr xs => wfArrList xs
  | .undefined => false
  | _ => true

/-- `wfJS` over object entries. -/
def wfObjList : List (String × JS) → Bool
  | [] => true
  | (_, v) :: r => wfJS v && wfObjList r

/-- `wfJS` over array elements. -/
def wfArrList : List JS → Bool
  | [] => true
  | x :: r => wfJS x && wfArrList r

end

/-!  ## Probability rule tables  -/

/-- `SAGE_SHARDS_BY_ENH`: enhancement level → shard count; levels outside the
table are absent. -/
def SAGE_SHARDS_BY_ENH (level : ℚ) : Option ℚ :=
  if level = 5 then some 4
  else if level = 6 then some 4
  else if level = 7 then some 4
  else if level = 8 then some 5
  else if level = 9 then some 5
  else if level = 10 then some 5
  else if level = 11 then some 6
  else if level = 12 then some 6
  else if level = 13 then some 7
  else if level = 14 then some 7
  else if level = 15 then some 12
  else none

/-- `SAGE_SHARDS_BY_ENH[s.sageEnhLevel] ?? 0` as used at the call sites. -/
def shardsFromEnh (level : ℚ) : ℚ := (SAGE_SHARDS_BY_ENH level).getD 0

/-- `gemExpertRule(level)`: (probability, count) per gem-skill level. -/
def gemExpertRule (level : ℚ) : ℚ × ℚ :=
  if level = 1 then (0.03, 1)
  else if level = 2 then (0.07, 1)
  else if level = 3 then (0.10, 2)
  else (0, 0)

/-- `flamingPickRule(level)`: (probability, replacement ingot count).  The
`Number.isFinite` guard is vacuous in the ℚ embedding. -/
def flamingPickRule (level : ℚ) : ℚ × ℚ :=
  if level ≤ 0 then (0, 1)
  else if 10 ≤ level then (0.15, 1)
  else (level / 100, 1)

/-!  ## EV Breakdown Calculator  -/

/-- Input bundle of `miningEVBreakdown`. -/
structure EVArgs where
  staminaPerDig : ℚ
  shardsPerDig : ℚ
  shardsPerIngot : ℚ
  ingotGrossPrice : ℚ
  gemDropProb : ℚ
  gemDropCount : ℚ
  gemGrossPrice : ℚ
  flamingIngotProb : ℚ
  sellFeeRate : ℚ

/-- Output bundle of `miningEVBreakdown` (every intermediate is exposed). -/
structure EVBreakdown where
  pFlame : ℚ
  staminaPerDig : ℚ
  shardsPerIngot : ℚ
  ingotNet : ℚ
  gemNet : ℚ
  ingotFromShardsPerDig : ℚ
  ingotFromShardsValuePerDig : ℚ
  ingotFromFlamePerDig : ℚ
  ingotFromFlameValuePerDig : ℚ
  gemValuePerDig : ℚ
  totalPerDig : ℚ
  totalPerStamina : ℚ

/-- `miningEVBreakdown` from the source: the flaming-pick event substitutes
for the shard yield (it is not additive), the gem drop is independent of it. -/
def miningEVBreakdown (a : EVArgs) : EVBreakdown :=
  let spd := max 1 a.staminaPerDig
  let spi := max 1 a.shardsPerIngot
  let p := clamp01 a.flamingIngotProb
  let ingotNet := netSell (max 0 a.ingotGrossPrice) a.sellFeeRate
  let gemNet := netSell (max 0 a.gemGrossPrice) a.sellFeeRate
  let ingotFromShardsPerDig := (1 - p) * (max 0 a.shardsPerDig / spi)
  let ingotFromShardsValuePerDig := ingotFromShardsPerDig * ingotNet
  let ingotFromFlamePerDig := p * 1
  let ingotFromFlameValuePerDig := ingotFromFlamePerDig * ingotNet
  let gemValuePerDig := clamp01 a.gemDropProb * max 0 a.gemDropCount * gemNet
  let totalPerDig := ingotFromShardsValuePerDig + ingotFromFlameValuePerDig + gemValuePerDig
  { pFlame := p
    staminaPerDig := spd
    shardsPerIngot := spi
    ingotNet := ingotNet
    gemNet := gemNet
    ingotFromShardsPerDig := ingotFromShardsPerDig
    ingotFromShardsValuePerDig := ingotFromShardsValuePerDig
    ingotFromFlamePerDig := ingotFromFlamePerDig
    ingotFromFlameValuePerDig := ingotFromFlameValuePerDig
    gemValuePerDig := gemValuePerDig
    totalPerDig := totalPerDig
    totalPerStamina := totalPerDig / spd }

/-!  ## Crafting Cost & Profit Comparator  -/

/-- `mode === "someString"`, JS strict equality against a string literal. -/
def jsEqStr (v : JS) (s : String) : Bool :=
  match v with
  | .str t => t = s
  | _ => false

/-- `s.modes[k] || "owned"`. -/
def modeOf (modesJS : JS) (k : String) : JS := jsOr (getProp modesJS k) (.str "owned")

/-- `toNum(s.prices[k]?.market ?? 0)`. -/
def marketOf (pricesJS : JS) (k : String) : ℚ :=
  toNum (jsCoalesce (getProp (getProp pricesJS k) "market") (.num 0)) 0

/-- `unitCostByMode` from the source: owned inputs are free, bought inputs
cost the raw market rate, anything else is costed as the foregone net sale. -/
def unitCostByMode (mode : JS) (marketPrice feeRate : ℚ) : ℚ :=
  if jsEqStr mode "owned" then 0
  else if jsEqStr mode "buy" then max 0 marketPrice
  else netSell (max 0 marketPrice) feeRate

/-- One entry of the cost list that the `craft` closure builds. -/
structure CostEntry where
  key : String
  qty : ℚ
  unitCost : ℚ
  mode : JS
  market : ℚ

/-- Result record of `craftProfit`. -/
structure CraftProfit where
  revenue : ℚ
  totalCost : ℚ
  profit : ℚ

/-- `craftProfit` from the source.  (`c.unitCost || 0` and `c.qty || 0` are
the identity on finite numbers, 0 included.) -/
def craftProfit (productGrossSellPrice feeRate : ℚ) (costs : List CostEntry) : CraftProfit :=
  let revenue := netSell (max 0 productGrossSellPrice) feeRate
  let totalCost := costs.foldl (fun acc c => acc + c.unitCost * c.qty) 0
  { revenue := revenue, totalCost := totalCost, profit := revenue - totalCost }

/-- `sellIndivNet(recipe)` from the `compare` closure: bought inputs
contribute nothing, everything else contributes its after-fee sale value. -/
def sellIndivNet (modesJS pricesJS : JS) (feeRate : ℚ) (recipe : List (String × ℚ)) : ℚ :=
  sum (recipe.map (fun kq =>
    if jsEqStr (modeOf modesJS kq.1) "buy" then 0
    else kq.2 * netSell (marketOf pricesJS kq.1) feeRate))

/-- Result record of the `craft` closure. -/
structure CraftResult where
  revenue : ℚ
  totalCost : ℚ
  profit : ℚ
  costs : List CostEntry
  buyList : List (String × ℚ)

/-- `craft(productGrossPrice, recipe)` from the `compare` closure. -/
def craft (modesJS pricesJS : JS) (feeRate : ℚ) (productGrossPrice : JS)
    (recipe : List (String × ℚ)) : CraftResult :=
  let costs := recipe.map (fun kq =>
    let mode := modeOf modesJS kq.1
    let market := marketOf pricesJS kq.1
    { key := kq.1, qty := kq.2, unitCost := unitCostByMode mode market feeRate,
      mode := mode, market := market : CostEntry })
  let cp := craftProfit (toNum productGrossPrice 0) feeRate costs
  { revenue := cp.revenue, totalCost := cp.totalCost, profit := cp.profit, costs := costs,
    buyList := (costs.filter (fun c => jsEqStr c.mode "buy")).map (fun c => (c.key, c.qty)) }

/-- `Math.round`: round half toward positive infinity. -/
def jsRound (q : ℚ) : ℤ := ⌊q + 1 / 2⌋

/-- `deltaByRounded(profit, sellIndivNet)` from the `compare` closure. -/
def deltaByRounded (profit sellIndiv : ℚ) : ℤ := jsRound profit - jsRound sellIndiv

/-- The recommendation cell: `x.profit - x.sellIndivNet >= 0` shows the
craft-is-favourable label, otherwise the sell-raw label. -/
def recommendsCrafting (profit sellIndiv : ℚ) : Bool := decide (0 ≤ profit - sellIndiv)

/-- The sell-fee rate the app derives from the persisted `feePct` field:
`toNum(s.feePct, 0) / 100` clamped into [0, 0.5], then passed to both the EV
calculator (`sellFeeRate`) and the crafting comparator. -/
def feeRateOf (feePct : JS) : ℚ := max 0 (min 0.5 (toNum feePct 0 / 100))

/-- Modelled from the spec (§4.1 Numeric Input Normalizer), for refinement
comparison with the source's `toNum`: a number comes back as itself (finite
numbers only exist in the ℚ embedding); a non-string non-number becomes the
fallback; a string is trimmed and the still-being-typed shapes "", "-", ".",
"-." become the fallback; otherwise the numeric parse decides, a non-finite
parse becoming the fallback.  Totality of the function is the spec's
"no exceptions raised to the caller". -/
def toNumSpec (v : JS) (fallback : ℚ) : ℚ :=
  match v with
  | .num q => q
  | .str s =>
    let t := s.trim
    if t = "" ∨ t = "-" ∨ t = "." ∨ t = "-." then fallback
    else
      match jsNumberOfTrimmed t.data with
      | some n => n
      | none => fallback
  | _ => fallback

/-!  ## Claim scenarios  -/

/-- The C1 scenario: enhancement 15 (shard yield from the table), fire skill
10 (probability from the rule), stamina 10, 16 shards per ingot, ingot gross
price 6000, fee rate 5%; the gem inputs are irrelevant to the claimed outputs
and are taken from gem-skill level 0. -/
def c1Args : EVArgs :=
  { staminaPerDig := 10
    shardsPerDig := shardsFromEnh 15
    shardsPerIngot := 16
    ingotGrossPrice := 6000
    gemDropProb := (gemExpertRule 0).1
    gemDropCount := (gemExpertRule 0).2
    gemGrossPrice := 0
    flamingIngotProb := (flamingPickRule 10).1
    sellFeeRate := 0.05 }

/-- The C2 scenario's supply modes: the single resource is in Opportunity mode. -/
def c2Modes : JS := .obj [("ingot", .str "opportunity")]

/-- The C2 scenario's market rates: the single resource trades at 6000. -/
def c2Prices : JS := .obj [("ingot", .obj [("market", .num 6000)])]

/-- The C2 scenario's recipe: 3 units of one resource. -/
def c2Recipe : List (String × ℚ) := [("ingot", 3)]

/-- The C2 scenario's craft result at fee 5% and finished-good price 18000. -/
def c2Craft : CraftResult := craft c2Modes c2Prices 0.05 (.num 18000) c2Recipe

/-- The C2 scenario's raw-sell baseline. -/
def c2Baseline : ℚ := sellIndivNet c2Modes c2Prices 0.05 c2Recipe

/-- Concrete arguments used to witness the universally quantified EV claims. -/
def evWitnessArgs : EVArgs :=
  { staminaPerDig := 10
    shardsPerDig := 12
    shardsPerIngot := 16
    ingotGrossPrice := 6000
    gemDropProb := 0.10
    gemDropCount := 2
    gemGrossPrice := 12000
    flamingIngotProb := 0.15
    sellFeeRate := 0.05 }

/-!  ## Claim theorems  -/

/-- C1 counterexample: in the spec's scenario (enhancement 15, fire skill 10,
stamina 10, 16 shards per unit, gross 6000, fee 5%) the derived-unit value per
action that the code computes is not the 4493.25 the claim states. -/
theorem c1_scenario_total_ne_claimed :
    (miningEVBreakdown c1Args).ingotFromShardsValuePerDig
      + (miningEVBreakdown c1Args).ingotFromFlameValuePerDig ≠ (4493.25 : ℚ) := by
  norm_num [miningEVBreakdown, c1Args, clamp01, netSell, shardsFromEnh, SAGE_SHARDS_BY_ENH,
    flamingPickRule, gemExpertRule, min_def, max_def]

/-- C1 (amended): the scenario yields normal-path 0.6375 units per action,
replacement-path 0.15 units per action, net unit price 5700, and a total
derived-unit value per action of (0.6375 + 0.15) × 5700 = 4488.75. -/
theorem c1_scenario_breakdown :
    (miningEVBreakdown c1Args).ingotFromShardsPerDig = (0.6375 : ℚ)
    ∧ (miningEVBreakdown c1Args).ingotFromFlamePerDig = (0.15 : ℚ)
    ∧ (miningEVBreakdown c1Args).ingotNet = (5700 : ℚ)
    ∧ (miningEVBreakdown c1Args).ingotFromShardsValuePerDig
        + (miningEVBreakdown c1Args).ingotFromFlameValuePerDig = (4488.75 : ℚ) := by
  refine ⟨?_, ?_, ?_, ?_⟩ <;>
    norm_num [miningEVBreakdown, c1Args, clamp01, netSell, shardsFromEnh, SAGE_SHARDS_BY_ENH,
      flamingPickRule, gemExpertRule, min_def, max_def]

/-- C2 counterexample: in the spec's scenario the recommendation delta
(profit − baseline) is −17100, not 0, and the ≥ 0 rule does not recommend
crafting. -/
theorem c2_scenario_delta_ne_zero :
    c2Craft.profit - c2Baseline ≠ 0
    ∧ deltaByRounded c2Craft.profit c2Baseline = -17100
    ∧ recommendsCrafting c2Craft.profit c2Baseline = false := by
  have h1 : jsEqStr (modeOf c2Modes "ingot") "owned" = false := by decide
  have h2 : jsEqStr (modeOf c2Modes "ingot") "buy" = false := by decide
  have h3 : marketOf c2Prices "ingot" = 6000 := by decide
  refine ⟨?_, ?_, ?_⟩ <;>
    norm_num [c2Craft, c2Baseline, craft, craftProfit, sellIndivNet, c2Recipe, unitCostByMode,
      h1, h2, h3, netSell, toNum, sum, deltaByRounded, jsRound, recommendsCrafting,
      min_def, max_def]

/-- C2 (amended): the scenario yields cost 17100, revenue 17100, profit 0 and
raw-sell baseline 17100, so the recommendation delta (profit − baseline) is
−17100 < 0 and the ≥ 0 rule recommends selling the raw materials instead of
crafting. -/
theorem c2_scenario_values :
    c2Craft.totalCost = (17100 : ℚ)
    ∧ c2Craft.revenue = (17100 : ℚ)
    ∧ c2Craft.profit = 0
    ∧ c2Baseline = (17100 : ℚ)
    ∧ c2Craft.profit - c2Baseline = (-17100 : ℚ)
    ∧ recommendsCrafting c2Craft.profit c2Baseline = false := by
  have h1 : jsEqStr (modeOf c2Modes "ingot") "owned" = false := by decide
  have h2 : jsEqStr (modeOf c2Modes "ingot") "buy" = false := by decide
  have h3 : marketOf c2Prices "ingot" = 6000 := by decide
  refine ⟨?_, ?_, ?_, ?_, ?_, ?_⟩ <;>
    norm_num [c2Craft, c2Baseline, craft, craftProfit, sellIndivNet, c2Recipe, unitCostByMode,
      h1, h2, h3, netSell, toNum, sum, recommendsCrafting, min_def, max_def]

/-- C3: with the spec's data-model constraints on the yield inputs (base
shard yield ≥ 0, shards per derived unit ≥ 1), the normal-path expected yield
per action is (1 − p) × (baseShardYield / shardsPerUnit) for the clamped
replacement probability p, the replacement-path expected yield is p × 1, and
at p = 1 the normal path contributes exactly 0 — the replacement substitutes
for the normal yield instead of adding to it. -/
theorem c3_replacement_semantics (a : EVArgs)
    (h1 : 0 ≤ a.shardsPerDig) (h2 : 1 ≤ a.shardsPerIngot) :
    (miningEVBreakdown a).ingotFromShardsPerDig
      = (1 - clamp01 a.flamingIngotProb) * (a.shardsPerDig / a.shardsPerIngot)
    ∧ (miningEVBreakdown a).ingotFromFlamePerDig = clamp01 a.flamingIngotProb * 1
    ∧ (clamp01 a.flamingIngotProb = 1 → (miningEVBreakdown a).ingotFromShardsPerDig = 0) := by
  have hs : max 0 a.shardsPerDig = a.shardsPerDig := max_eq_right h1
  have hi : max 1 a.shardsPerIngot = a.shardsPerIngot := max_eq_right h2
  refine ⟨?_, rfl, ?_⟩
  · simp only [miningEVBreakdown, hs, hi]
  · intro hp
    simp only [miningEVBreakdown, hs, hi, hp]
    ring

/-- Witness for C3 at the concrete arguments of the scenario table. -/
theorem c3_replacement_semantics_witness :
    (miningEVBreakdown evWitnessArgs).ingotFromShardsPerDig
      = (1 - clamp01 evWitnessArgs.flamingIngotProb)
        * (evWitnessArgs.shardsPerDig / evWitnessArgs.shardsPerIngot)
    ∧ (miningEVBreakdown evWitnessArgs).ingotFromFlamePerDig
        = clamp01 evWitnessArgs.flamingIngotProb * 1
    ∧ (clamp01 evWitnessArgs.flamingIngotProb = 1 →
        (miningEVBreakdown evWitnessArgs).ingotFromShardsPerDig = 0) :=
  c3_replacement_semantics evWitnessArgs (by decide) (by decide)

/-- C4: the gem expected value per action ignores the replacement probability
— two inputs differing only in it give identical gem values — and equals
clamp01(dropProb) × max(0, dropCount) × net gem price. -/
theorem c4_gem_value_independent (a : EVArgs) (p1 p2 : ℚ) :
    (miningEVBreakdown { a with flamingIngotProb := p1 }).gemValuePerDig
      = (miningEVBreakdown { a with flamingIngotProb := p2 }).gemValuePerDig
    ∧ (miningEVBreakdown a).gemValuePerDig
      = clamp01 a.gemDropProb * max 0 a.gemDropCount
        * netSell (max 0 a.gemGrossPrice) a.sellFeeRate :=
  ⟨rfl, rfl⟩

theorem foldl_add_init (l : List ℚ) (a : ℚ) :
    l.foldl (· + ·) a = a + l.foldl (· + ·) 0 := by
  induction l generalizing a with
  | nil => simp
  | cons x r ih =>
    simp only [List.foldl_cons]
    rw [ih (a + x), ih (0 + x)]
    ring

theorem sum_cons (x : ℚ) (l : List ℚ) : sum (x :: l) = x + sum l := by
  simp only [sum, List.foldl_cons]
  rw [foldl_add_init l (0 + x)]
  ring

/-- C7: the raw-sell baseline is exactly the fee-discounted market value of
the non-Buy entries of the recipe — Buy entries contribute 0, Owned and
Opportunity entries contribute quantity × rate × (1 − fee). -/
theorem c7_baseline_excludes_buy (modesJS pricesJS : JS) (feeRate : ℚ)
    (recipe : List (String × ℚ)) :
    sellIndivNet modesJS pricesJS feeRate recipe
      = sum ((recipe.filter (fun kq => !(jsEqStr (modeOf modesJS kq.1) "buy"))).map
          (fun kq => kq.2 * (marketOf pricesJS kq.1 * (1 - feeRate)))) := by
  induction recipe with
  | nil => rfl
  | cons kq r ih =>
    have ih' := ih
    simp only [sellIndivNet] at ih' ⊢
    by_cases h : jsEqStr (modeOf modesJS kq.1) "buy" = true
    · simp [h, sum_cons, ih']
    · simp only [Bool.not_eq_true] at h
      simp only [List.map_cons, List.filter_cons, h, Bool.not_false, eq_self_iff_true, if_true,
        if_neg Bool.false_ne_true, sum_cons]
      rw [ih']
      rfl

/-- C8: the per-unit acquisition cost for a non-negative market rate and a fee
rate in [0, 1] is 0 for Owned, the raw market rate for Buy, and the after-fee
net rate for Opportunity. -/
theorem c8_unit_cost_by_mode (m fee : ℚ) (hm : 0 ≤ m) (hf0 : 0 ≤ fee) (hf1 : fee ≤ 1) :
    unitCostByMode (.str "owned") m fee = 0
    ∧ unitCostByMode (.str "buy") m fee = m
    ∧ unitCostByMode (.str "opportunity") m fee = m * (1 - fee) := by
  refine ⟨rfl, ?_, ?_⟩
  · show max 0 m = m
    exact max_eq_right hm
  · show netSell (max 0 m) fee = m * (1 - fee)
    rw [netSell, max_eq_right hm]

/-- Witness for C8 at market rate 6000 and fee 5%. -/
theorem c8_unit_cost_by_mode_witness :
    unitCostByMode (.str "owned") 6000 0.05 = 0
    ∧ unitCostByMode (.str "buy") 6000 0.05 = 6000
    ∧ unitCostByMode (.str "opportunity") 6000 0.05 = 6000 * (1 - 0.05) :=
  c8_unit_cost_by_mode 6000 0.05 (by norm_num) (by norm_num) (by norm_num)

/-- C9: the source's numeric-input normalizer agrees everywhere with the
spec's contract `toNumSpec` — a total function returning a finite rational:
finite numbers pass through, non-string non-numbers fall back, trimmed
still-being-typed strings fall back, unparseable strings fall back. -/
theorem c9_toNum_meets_contract (v : JS) (fallback : ℚ) :
    toNum v fallback = toNumSpec v fallback := by
  cases v with
  | str s =>
    simp only [toNum, toNumSpec]
    by_cases h1 : s.trim = ""
    · simp [h1]
    · by_cases h2 : s.trim = "-" ∨ s.trim = "." ∨ s.trim = "-."
      · simp [h1, h2]
      · simp [h1, h2]
  | null => rfl
  | undefined => rfl
  | bool b => rfl
  | num q => rfl
  | arr xs => rfl
  | obj kvs => rfl

/-- C10: the fee rate handed to the calculators — `toNum(feePct, 0) / 100`
clamped — always lies in [0, 0.5], whatever the persisted `feePct` holds. -/
theorem c10_fee_rate_bounds (feePct : JS) :
    0 ≤ feeRateOf feePct ∧ feeRateOf feePct ≤ 0.5 := by
  constructor
  · exact le_max_left _ _
  · exact max_le (by norm_num) (min_le_left _ _)

/-!  ## Association-list lemmas for the migration proofs  -/

theorem hasKey_of_mem {l : List (String × JS)} {k : String} {v : JS}
    (h : (k, v) ∈ l) : hasKey l k = true := by
  induction l with
  | nil => simp at h
  | cons kv r ih =>
    rcases List.mem_cons.mp h with h1 | h1
    · rw [← h1]
      simp [hasKey]
    · simp [hasKey, ih h1]

theorem getKey_mem {l : List (String × JS)} {k : String}
    (h : hasKey l k = true) : (k, getKey l k) ∈ l := by
  induction l with
  | nil => simp [hasKey] at h
  | cons kv r ih =>
    by_cases hk : kv.1 = k
    · obtain ⟨k1, v1⟩ := kv
      simp only at hk
      subst hk
      simp [getKey]
    · simp only [hasKey, Bool.or_eq_true, decide_eq_true_eq] at h
      rcases h with h | h
      · exact absurd h hk
      · simp only [getKey, if_neg hk]
        exact List.mem_cons_of_mem _ (ih h)

theorem hasKey_append (as bs : List (String × JS)) (k : String) :
    hasKey (as ++ bs) k = (hasKey as k || hasKey bs k) := by
  induction as with
  | nil => simp [hasKey]
  | cons kv r ih => simp [hasKey, ih, Bool.or_assoc]

theorem getKey_append_left {as : List (String × JS)} (bs : List (String × JS)) {k : String}
    (h : hasKey as k = true) : getKey (as ++ bs) k = getKey as k := by
  induction as with
  | nil => simp [hasKey] at h
  | cons kv r ih =>
    by_cases hk : kv.1 = k
    · simp [getKey, hk]
    · simp only [hasKey, Bool.or_eq_true, decide_eq_true_eq] at h
      rcases h with h | h
      · exact absurd h hk
      · simp only [List.cons_append, getKey, if_neg hk]
        exact ih h

theorem getKey_append_right {as : List (String × JS)} (bs : List (String × JS)) {k : String}
    (h : hasKey as k = false) : getKey (as ++ bs) k = getKey bs k := by
  induction as with
  | nil => simp
  | cons kv r ih =>
    simp only [hasKey, Bool.or_eq_false_iff, decide_eq_false_iff_not] at h
    simp only [List.cons_append, getKey, if_neg h.1]
    exact ih h.2

theorem hasKey_setKey_self (l : List (String × JS)) (k : String) (v : JS) :
    hasKey (setKey l k v) k = true := by
  induction l with
  | nil => simp [setKey, hasKey]
  | cons kv r ih =>
    by_cases hk : kv.1 = k
    · simp [setKey, hk, hasKey]
    · simp [setKey, if_neg hk, hasKey, ih]

theorem getKey_setKey_self (l : List (String × JS)) (k : String) (v : JS) :
    getKey (setKey l k v) k = v := by
  induction l with
  | nil => simp [setKey, getKey]
  | cons kv r ih =>
    by_cases hk : kv.1 = k
    · simp [setKey, hk, getKey]
    · simp [setKey, if_neg hk, getKey, ih]

theorem hasKey_setKey_ne (l : List (String × JS)) {k j : String} (v : JS)
    (h : j ≠ k) : hasKey (setKey l k v) j = hasKey l j := by
  have hkj : k ≠ j := Ne.symm h
  induction l with
  | nil => simp [setKey, hasKey, hkj]
  | cons kv r ih =>
    by_cases hk : kv.1 = k
    · obtain ⟨k1, v1⟩ := kv
      simp only at hk
      subst hk
      simp [setKey, hasKey, hkj]
    · simp [setKey, if_neg hk, hasKey, ih]

theorem getKey_setKey_ne (l : List (String × JS)) {k j : String} (v : JS)
    (h : j ≠ k) : getKey (setKey l k v) j = getKey l j := by
  have hkj : k ≠ j := Ne.symm h
  induction l with
  | nil => simp [setKey, getKey, hkj]
  | cons kv r ih =>
    by_cases hk : kv.1 = k
    · obtain ⟨k1, v1⟩ := kv
      simp only at hk
      subst hk
      simp [setKey, getKey, hkj]
    · simp [setKey, if_neg hk, getKey, ih]

theorem setKey_append_left {as : List (String × JS)} (bs : List (String × JS))
    {k : String} (v : JS) (h : hasKey as k = true) :
    setKey (as ++ bs) k v = setKey as k v ++ bs := by
  induction as with
  | nil => simp [hasKey] at h
  | cons kv r ih =>
    by_cases hk : kv.1 = k
    · simp [setKey, hk]
    · simp only [hasKey, Bool.or_eq_true, decide_eq_true_eq] at h
      rcases h with h | h
      · exact absurd h hk
      · simp [setKey, if_neg hk, ih h]

theorem setKey_append_right {as : List (String × JS)} (bs : List (String × JS))
    {k : String} (v : JS) (h : hasKey as k = false) :
    setKey (as ++ bs) k v = as ++ setKey bs k v := by
  induction as with
  | nil => simp
  | cons kv r ih =>
    simp only [hasKey, Bool.or_eq_false_iff, decide_eq_false_iff_not] at h
    simp [setKey, if_neg h.1, ih h.2]

theorem keys_setKey {l : List (String × JS)} {k : String} (v : JS)
    (h : hasKey l k = true) : (setKey l k v).map Prod.fst = l.map Prod.fst := by
  induction l with
  | nil => simp [hasKey] at h
  | cons kv r ih =>
    by_cases hk : kv.1 = k
    · simp [setKey, hk]
    · simp only [hasKey, Bool.or_eq_true, decide_eq_true_eq] at h
      rcases h with h | h
      · exact absurd h hk
      · simp [setKey, if_neg hk, ih h]

theorem setKey_getKey_eq {l : List (String × JS)} {k : String} {v : JS}
    (hv : getKey l k = v) (h : hasKey l k = true) : setKey l k v = l := by
  induction l with
  | nil => simp [hasKey] at h
  | cons kv r ih =>
    by_cases hk : kv.1 = k
    · obtain ⟨k1, v1⟩ := kv
      simp only at hk
      subst hk
      have hv1 : v = v1 := by simpa [getKey] using hv.symm
      subst hv1
      simp [setKey]
    · simp only [getKey, if_neg hk] at hv
      simp only [hasKey, Bool.or_eq_true, decide_eq_true_eq] at h
      rcases h with h | h
      · exact absurd h hk
      · simp [setKey, if_neg hk, ih hv h]

theorem mem_setKey {l : List (String × JS)} {k : String} {v : JS} {kv : String × JS}
    (h : kv ∈ setKey l k v) : kv ∈ l ∨ kv = (k, v) := by
  induction l with
  | nil => simp [setKey] at h; simp [h]
  | cons kv0 r ih =>
    by_cases hk : kv0.1 = k
    · simp only [setKey, if_pos hk] at h
      rcases List.mem_cons.mp h with h1 | h1
      · exact Or.inr h1
      · exact Or.inl (List.mem_cons_of_mem _ h1)
    · simp only [setKey, if_neg hk] at h
      rcases List.mem_cons.mp h with h1 | h1
      · exact Or.inl (h1 ▸ List.mem_cons_self _ _)
      · rcases ih h1 with h2 | h2
        · exact Or.inl (List.mem_cons_of_mem _ h2)
        · exact Or.inr h2

theorem hasKey_iff_mem_keys {l : List (String × JS)} {k : String} :
    hasKey l k = true ↔ k ∈ l.map Prod.fst := by
  induction l with
  | nil => simp [hasKey]
  | cons kv r ih =>
    simp only [hasKey, Bool.or_eq_true, decide_eq_true_eq, List.map_cons, List.mem_cons, ih]
    constructor
    · rintro (h | h)
      · exact Or.inl h.symm
      · exact Or.inr h
    · rintro (h | h)
      · exact Or.inl h.symm
      · exact Or.inr h

theorem keyNodup_cons {k : String} {ks : List String} (h : keyNodup (k :: ks) = true) :
    k ∉ ks ∧ keyNodup ks = true := by
  simp only [keyNodup, Bool.and_eq_true, Bool.not_eq_true', decide_eq_false_iff_not] at h
  exact h

theorem getKey_of_mem_nodup {l : List (String × JS)} {k : String} {v : JS}
    (hnd : keyNodup (l.map Prod.fst) = true) (h : (k, v) ∈ l) : getKey l k = v := by
  induction l with
  | nil => simp at h
  | cons kv r ih =>
    obtain ⟨k1, v1⟩ := kv
    simp only [List.map_cons] at hnd
    obtain ⟨hk1, hnd'⟩ := keyNodup_cons hnd
    rcases List.mem_cons.mp h with h1 | h1
    · obtain ⟨hk, hv⟩ := Prod.mk.injEq .. ▸ h1
      subst hk
      subst hv
      simp [getKey]
    · have hne : k1 ≠ k := by
        intro he
        subst he
        exact hk1 (List.mem_map.mpr ⟨(k1, v), h1, rfl⟩)
      simp only [getKey, if_neg hne]
      exact ih hnd' h1

theorem mergeInto_eq_map (l ps : List (String × JS)) :
    mergeInto l ps = l.map (fun kv => (kv.1, mergeVal kv.2 ps kv.1)) := by
  induction l with
  | nil => simp [mergeInto]
  | cons kv r ih =>
    obtain ⟨k, v⟩ := kv
    simp [mergeInto, ih]

theorem keys_mergeInto (l ps : List (String × JS)) :
    (mergeInto l ps).map Prod.fst = l.map Prod.fst := by
  rw [mergeInto_eq_map]
  simp

theorem getKey_mergeInto {l : List (String × JS)} (ps : List (String × JS))
    {k : String} {v : JS}
    (hnd : keyNodup (l.map Prod.fst) = true) (h : (k, v) ∈ l) :
    getKey (mergeInto l ps) k = mergeVal v ps k := by
  rw [mergeInto_eq_map]
  have hnd' : keyNodup ((l.map (fun kv => (kv.1, mergeVal kv.2 ps kv.1))).map Prod.fst) = true := by
    have : (l.map (fun kv => (kv.1, mergeVal kv.2 ps kv.1))).map Prod.fst = l.map Prod.fst := by
      simp
    rw [this]
    exact hnd
  exact getKey_of_mem_nodup hnd' (List.mem_map.mpr ⟨(k, v), h, rfl⟩)

theorem newEntries_append (bs xs ys : List (String × JS)) :
    newEntries bs (xs ++ ys) = newEntries bs xs ++ newEntries bs ys := by
  simp [newEntries, List.filter_append]

theorem newEntries_eq_nil {bs ps : List (String × JS)}
    (h : ∀ kv ∈ ps, hasKey bs kv.1 = true) : newEntries bs ps = [] := by
  induction ps with
  | nil => rfl
  | cons kv r ih =>
    simp only [newEntries, List.filter_cons, h kv (List.mem_cons_self _ _), Bool.not_true]
    exact ih (fun kv2 hm => h kv2 (List.mem_cons_of_mem _ hm))

theorem newEntries_eq_self {bs ps : List (String × JS)}
    (h : ∀ kv ∈ ps, hasKey bs kv.1 = false) : newEntries bs ps = ps := by
  induction ps with
  | nil => rfl
  | cons kv r ih =>
    simp only [newEntries, List.filter_cons, h kv (List.mem_cons_self _ _), Bool.not_false,
      if_pos]
    rw [show List.filter (fun kv => !hasKey bs kv.1) r = newEntries bs r from rfl,
      ih (fun kv2 hm => h kv2 (List.mem_cons_of_mem _ hm))]

theorem mem_newEntries {bs ps : List (String × JS)} {kv : String × JS}
    (h : kv ∈ newEntries bs ps) : kv ∈ ps ∧ hasKey bs kv.1 = false := by
  have := List.mem_filter.mp h
  refine ⟨this.1, ?_⟩
  have h2 := this.2
  simp only [Bool.not_eq_true'] at h2
  exact h2

theorem deepMerge_obj (bs ps : List (String × JS)) :
    deepMerge (.obj bs) (.obj ps) = .obj (mergeInto bs ps ++ newEntries bs ps) := by
  simp [deepMerge]

theorem isPlainObject_deepMerge {a b : JS}
    (ha : isPlainObject a = true) (hb : isPlainObject b = true) :
    isPlainObject (deepMerge a b) = true := by
  cases a <;> simp [isPlainObject] at ha
  cases b <;> simp [isPlainObject] at hb
  rw [deepMerge_obj]
  rfl

theorem wfJS_obj_parts {l : List (String × JS)} (h : wfJS (.obj l) = true) :
    keyNodup (l.map Prod.fst) = true ∧ wfObjList l = true := by
  simp only [wfJS, Bool.and_eq_true] at h
  exact h

theorem wfObjList_val {l : List (String × JS)} {k : String} {v : JS}
    (h : wfObjList l = true) (hm : (k, v) ∈ l) : wfJS v = true := by
  induction l with
  | nil => simp at hm
  | cons kv r ih =>
    obtain ⟨k1, v1⟩ := kv
    simp only [wfObjList, Bool.and_eq_true] at h
    rcases List.mem_cons.mp hm with h1 | h1
    · obtain ⟨hk, hv⟩ := Prod.mk.injEq .. ▸ h1
      subst hv
      exact h.1
    · exact ih h.2 h1

theorem mergeVal_eq {ps : List (String × JS)} {k : String} (v : JS)
    (hk : hasKey ps k = true) :
    mergeVal v ps k
      = if (isPlainObject v && isPlainObject (getKey ps k)) = true
        then deepMerge v (getKey ps k) else getKey ps k := by
  simp [mergeVal, hk]

theorem mergeVal_of_not {ps : List (String × JS)} {k : String} (v : JS)
    (hk : hasKey ps k = false) : mergeVal v ps k = v := by
  simp [mergeVal, hk]

/-- Merging a well-formed document with itself is the identity. -/
theorem selfMerge : ∀ (a : JS), wfJS a = true → deepMerge a a = a
  | .obj kvs, hwf => by
    obtain ⟨hnd, hvals⟩ := wfJS_obj_parts hwf
    rw [deepMerge_obj]
    have hnil : newEntries kvs kvs = [] := newEntries_eq_nil (fun kv hm => hasKey_of_mem hm)
    rw [hnil, List.append_nil, mergeInto_eq_map]
    have hmap : ∀ kv ∈ kvs, (kv.1, mergeVal kv.2 kvs kv.1) = id kv := by
      intro kv hm
      obtain ⟨k, v⟩ := kv
      simp only [id]
      have hk : hasKey kvs k = true := hasKey_of_mem hm
      have hg : getKey kvs k = v := getKey_of_mem_nodup hnd hm
      rw [mergeVal_eq v hk, hg]
      by_cases hobj : isPlainObject v = true
      · rw [if_pos (by simp [hobj]), selfMerge v (wfObjList_val hvals hm)]
      · rw [if_neg (by simp [hobj])]
    rw [List.map_congr_left hmap, List.map_id]
  | .null, _ => by simp [deepMerge]
  | .undefined, _ => by simp [deepMerge]
  | .bool b, _ => by simp [deepMerge]
  | .num q, _ => by simp [deepMerge]
  | .str s, _ => by simp [deepMerge]
  | .arr xs, _ => by simp [deepMerge]
termination_by a => sizeOf a
decreasing_by
  have h1 : sizeOf (k, v) < sizeOf kvs := List.sizeOf_lt_of_mem hm
  simp at h1 ⊢
  omega

/-- Absorption: re-merging a well-formed base into one of its own merge
results is the identity.  This is the heart of migration idempotence. -/
theorem absorb : ∀ (d x : List (String × JS)), wfJS (.obj d) = true →
    deepMerge (.obj d) (deepMerge (.obj d) (.obj x)) = deepMerge (.obj d) (.obj x)
  | d, x, hwf => by
    obtain ⟨hnd, hvals⟩ := wfJS_obj_parts hwf
    rw [deepMerge_obj d x]
    set m := mergeInto d x ++ newEntries d x with hmdef
    rw [deepMerge_obj d m]
    have hkeys_mi : ∀ kv ∈ mergeInto d x, hasKey d kv.1 = true := by
      intro kv hm2
      have hmem : kv.1 ∈ (mergeInto d x).map Prod.fst := List.mem_map.mpr ⟨kv, hm2, rfl⟩
      rw [keys_mergeInto] at hmem
      exact hasKey_iff_mem_keys.mpr hmem
    have hne : newEntries d m = newEntries d x := by
      rw [hmdef, newEntries_append, newEntries_eq_nil hkeys_mi, List.nil_append]
      exact newEntries_eq_self (fun kv hm2 => (mem_newEntries hm2).2)
    have hmi : mergeInto d m = mergeInto d x := by
      rw [mergeInto_eq_map d m, mergeInto_eq_map d x]
      refine List.map_congr_left ?_
      intro kv hm2
      obtain ⟨k, v⟩ := kv
      simp only [Prod.mk.injEq, true_and]
      have hkd : hasKey d k = true := hasKey_of_mem hm2
      have hkmi : hasKey (mergeInto d x) k = true := by
        rw [hasKey_iff_mem_keys, keys_mergeInto]
        exact hasKey_iff_mem_keys.mp hkd
      have hkm : hasKey m k = true := by
        rw [hmdef, hasKey_append, hkmi, Bool.true_or]
      have hgm : getKey m k = mergeVal v x k := by
        rw [hmdef, getKey_append_left _ hkmi]
        exact getKey_mergeInto x hnd hm2
      rw [mergeVal_eq v hkm, hgm]
      by_cases hkx : hasKey x k = true
      · by_cases hobj : (isPlainObject v && isPlainObject (getKey x k)) = true
        · have hmv : mergeVal v x k = deepMerge v (getKey x k) := by
            rw [mergeVal_eq v hkx, if_pos hobj]
          have hv : isPlainObject v = true := ((Bool.and_eq_true _ _).mp hobj).1
          have hw : isPlainObject (getKey x k) = true := ((Bool.and_eq_true _ _).mp hobj).2
          have hdm : isPlainObject (deepMerge v (getKey x k)) = true :=
            isPlainObject_deepMerge hv hw
          rw [hmv, if_pos (by simp [hv, hdm])]
          obtain ⟨vl, hvl⟩ : ∃ vl, v = .obj vl := by
            cases v <;> simp [isPlainObject] at hv ⊢
          obtain ⟨wl, hwl⟩ : ∃ wl, getKey x k = .obj wl := by
            cases hgx : getKey x k <;> rw [hgx] at hw <;> simp [isPlainObject] at hw ⊢
          rw [hvl, hwl]
          exact absorb vl wl (hvl ▸ wfObjList_val hvals hm2)
        · have hmv : mergeVal v x k = getKey x k := by
            rw [mergeVal_eq v hkx, if_neg hobj]
          rw [hmv, if_neg hobj]
      · have hkx' : hasKey x k = false := by simpa using hkx
        have hmv : mergeVal v x k = v := mergeVal_of_not v hkx'
        rw [hmv]
        by_cases hobj : isPlainObject v = true
        · rw [if_pos (by simp [hobj])]
          exact selfMerge v (wfObjList_val hvals hm2)
        · rw [if_neg (by simp [hobj])]
    rw [hne, hmi]
termination_by d _ _ => sizeOf d
decreasing_by
  have h1 : sizeOf (k, v) < sizeOf d := List.sizeOf_lt_of_mem hm2
  rw [hvl] at h1
  simp at h1 ⊢
  omega

theorem mergeVal_setKey_ne {sl : List (String × JS)} {k j : String} (v v' : JS)
    (h : j ≠ k) : mergeVal v (setKey sl k v') j = mergeVal v sl j := by
  by_cases hj : hasKey sl j = true
  · have h1 : hasKey (setKey sl k v') j = true := by
      rw [hasKey_setKey_ne sl v' h]
      exact hj
    rw [mergeVal_eq v h1, mergeVal_eq v hj, getKey_setKey_ne sl v' h]
  · have hj' : hasKey sl j = false := by simpa using hj
    have h1 : hasKey (setKey sl k v') j = false := by
      rw [hasKey_setKey_ne sl v' h]
      exact hj'
    rw [mergeVal_of_not v h1, mergeVal_of_not v hj']

theorem mergeInto_setKey_ne {l sl : List (String × JS)} {k : String} (v' : JS)
    (h : ∀ kv ∈ l, kv.1 ≠ k) : mergeInto l (setKey sl k v') = mergeInto l sl := by
  rw [mergeInto_eq_map, mergeInto_eq_map]
  exact List.map_congr_left (fun kv hm => by rw [mergeVal_setKey_ne kv.2 v' (h kv hm)])

theorem mergeInto_setKey {l sl : List (String × JS)} {k : String} {v' : JS}
    (hnd : keyNodup (l.map Prod.fst) = true) (hkl : hasKey l k = true)
    (hval : ∀ v, (k, v) ∈ l → mergeVal v (setKey sl k v') k = v') :
    mergeInto l (setKey sl k v') = setKey (mergeInto l sl) k v' := by
  induction l with
  | nil => simp [hasKey] at hkl
  | cons kv r ih =>
    obtain ⟨k1, v1⟩ := kv
    simp only [List.map_cons] at hnd
    obtain ⟨hk1, hnd'⟩ := keyNodup_cons hnd
    by_cases hkk : k1 = k
    · subst hkk
      simp only [mergeInto]
      rw [hval v1 (List.mem_cons_self _ _)]
      rw [show setKey ((k1, mergeVal v1 sl k1) :: mergeInto r sl) k1 v'
            = (k1, v') :: mergeInto r sl from by simp [setKey]]
      congr 1
      refine mergeInto_setKey_ne v' ?_
      intro kv hm he
      exact hk1 (he ▸ List.mem_map.mpr ⟨kv, hm, rfl⟩)
    · simp only [hasKey, Bool.or_eq_true, decide_eq_true_eq] at hkl
      rcases hkl with h1 | h1
      · exact absurd h1 hkk
      · simp only [mergeInto]
        rw [mergeVal_setKey_ne v1 v' hkk]
        rw [show setKey ((k1, mergeVal v1 sl k1) :: mergeInto r sl) k v'
              = (k1, mergeVal v1 sl k1) :: setKey (mergeInto r sl) k v' from by
            simp [setKey, hkk]]
        congr 1
        exact ih hnd' h1 (fun v hv => hval v (List.mem_cons_of_mem _ hv))

theorem newEntries_setKey {d sl : List (String × JS)} {k : String} (v' : JS)
    (hkd : hasKey d k = true) : newEntries d (setKey sl k v') = newEntries d sl := by
  induction sl with
  | nil => simp [setKey, newEntries, hkd]
  | cons kv r ih =>
    obtain ⟨k1, u⟩ := kv
    by_cases hkk : k1 = k
    · subst hkk
      simp [setKey, newEntries, List.filter_cons, hkd]
    · simp only [setKey, if_neg hkk]
      simp only [newEntries, List.filter_cons] at ih ⊢
      by_cases hd1 : hasKey d k1 = true
      · simp only [hd1, Bool.not_true]
        exact ih
      · have hd1' : hasKey d k1 = false := by simpa using hd1
        simp only [hd1', Bool.not_false, if_pos]
        rw [ih]

/-- Updating an absorbed document at a key of the base, with a value the
base's entry absorbs, keeps the document absorbed. -/
theorem absorb_setKey {dl sl : List (String × JS)} {k : String} {v' : JS}
    (hwf : wfJS (.obj dl) = true)
    (habs : deepMerge (.obj dl) (.obj sl) = .obj sl)
    (hkd : hasKey dl k = true)
    (hcond : (isPlainObject (getKey dl k) && isPlainObject v') = true →
        deepMerge (getKey dl k) v' = v') :
    deepMerge (.obj dl) (.obj (setKey sl k v')) = .obj (setKey sl k v') := by
  obtain ⟨hnd, hvals⟩ := wfJS_obj_parts hwf
  rw [deepMerge_obj] at habs
  have hsl : mergeInto dl sl ++ newEntries dl sl = sl := by
    injection habs
  have hkmi : hasKey (mergeInto dl sl) k = true := by
    rw [hasKey_iff_mem_keys, keys_mergeInto]
    exact hasKey_iff_mem_keys.mp hkd
  have hval : ∀ v, (k, v) ∈ dl → mergeVal v (setKey sl k v') k = v' := by
    intro v hm
    have hk1 : hasKey (setKey sl k v') k = true := hasKey_setKey_self sl k v'
    rw [mergeVal_eq v hk1, getKey_setKey_self]
    have hgd : getKey dl k = v := getKey_of_mem_nodup hnd hm
    by_cases hobj : (isPlainObject v && isPlainObject v') = true
    · rw [if_pos hobj]
      have hc := hcond (by rw [hgd]; exact hobj)
      rw [hgd] at hc
      exact hc
    · rw [if_neg hobj]
  rw [deepMerge_obj, mergeInto_setKey hnd hkd hval, newEntries_setKey v' hkd]
  congr 1
  conv_rhs => rw [← hsl]
  rw [setKey_append_left _ v' hkmi]

theorem foldl_setKey_shape (base : List (String × JS)) :
    ∀ (sp us zs : List (String × JS)),
      us.map Prod.fst = base.map Prod.fst →
      (∀ kv ∈ zs, hasKey base kv.1 = false) →
      ∃ us' zs',
        sp.foldl (fun acc kv => setKey acc kv.1 kv.2) (us ++ zs) = us' ++ zs'
        ∧ us'.map Prod.fst = base.map Prod.fst
        ∧ ∀ kv ∈ zs', hasKey base kv.1 = false := by
  intro sp
  induction sp with
  | nil =>
    intro us zs h1 h2
    exact ⟨us, zs, rfl, h1, h2⟩
  | cons kv rest ih =>
    intro us zs h1 h2
    simp only [List.foldl_cons]
    by_cases hk : hasKey us kv.1 = true
    · rw [setKey_append_left zs kv.2 hk]
      exact ih (setKey us kv.1 kv.2) zs (by rw [keys_setKey kv.2 hk]; exact h1) h2
    · have hk' : hasKey us kv.1 = false := by simpa using hk
      rw [setKey_append_right zs kv.2 hk']
      refine ih us (setKey zs kv.1 kv.2) h1 ?_
      intro kv2 hm2
      have hb : hasKey base kv.1 = false := by
        cases hcase : hasKey base kv.1 with
        | false => rfl
        | true =>
          have hmem : kv.1 ∈ base.map Prod.fst := hasKey_iff_mem_keys.mp hcase
          rw [← h1] at hmem
          rw [← hasKey_iff_mem_keys] at hmem
          rw [hmem] at hk'
          exact absurd hk' (by simp)
      rcases mem_setKey hm2 with hmm | hmm
      · exact h2 kv2 hmm
      · rw [hmm]
        exact hb

theorem assoc_reconstruct : ∀ (b us : List (String × JS)),
    us.map Prod.fst = b.map Prod.fst → keyNodup (b.map Prod.fst) = true →
    b.map (fun kv => (kv.1, getKey us kv.1)) = us := by
  intro b
  induction b with
  | nil =>
    intro us h _
    simp only [List.map_nil]
    symm
    simpa using List.map_eq_nil_iff.mp h
  | cons kv r ih =>
    intro us h hnd
    obtain ⟨k1, v1⟩ := kv
    cases us with
    | nil => simp at h
    | cons u0 us' =>
      obtain ⟨uk, uv⟩ := u0
      simp only [List.map_cons, List.cons.injEq] at h
      obtain ⟨hu0, hus'⟩ := h
      subst hu0
      simp only [List.map_cons] at hnd
      obtain ⟨hk1, hnd'⟩ := keyNodup_cons hnd
      simp only [List.map_cons]
      congr 1
      · simp [getKey]
      · refine (List.map_congr_left ?_).trans (ih us' hus' hnd')
        intro kv2 hm
        have hne : kv2.1 ≠ uk := fun he => hk1 (he ▸ List.mem_map.mpr ⟨kv2, hm, rfl⟩)
        simp only [getKey]
        rw [if_neg (fun he => hne (Eq.symm he))]

/-- The v0 → v1 / v2 → v3 patch shape: laying arbitrary spread entries over a
base whose values are not plain objects yields a document the base absorbs. -/
theorem absorb_objLit {base : List (String × JS)} (sp : List (String × JS))
    (hnd : keyNodup (base.map Prod.fst) = true)
    (hnonobj : ∀ kv ∈ base, isPlainObject kv.2 = false) :
    deepMerge (.obj base) (.obj (objLit base sp)) = .obj (objLit base sp) := by
  obtain ⟨us, zs, heq0, hkeys, hzs⟩ :=
    foldl_setKey_shape base sp base [] rfl (by simp)
  have heq : objLit base sp = us ++ zs := by
    rw [objLit]
    rw [show base ++ ([] : List (String × JS)) = base from List.append_nil base] at heq0
    exact heq0
  rw [heq, deepMerge_obj]
  have h1 : newEntries base (us ++ zs) = zs := by
    have hnilus : newEntries base us = [] := by
      refine newEntries_eq_nil ?_
      intro kv hm
      rw [hasKey_iff_mem_keys, ← hkeys]
      exact List.mem_map.mpr ⟨kv, hm, rfl⟩
    rw [newEntries_append, hnilus, List.nil_append, newEntries_eq_self hzs]
  have h2 : mergeInto base (us ++ zs) = us := by
    rw [mergeInto_eq_map]
    have hcg : ∀ kv ∈ base,
        (kv.1, mergeVal kv.2 (us ++ zs) kv.1) = (kv.1, getKey us kv.1) := by
      intro kv hm
      have hku : hasKey us kv.1 = true := by
        rw [hasKey_iff_mem_keys, hkeys]
        exact List.mem_map.mpr ⟨kv, hm, rfl⟩
      have hk : hasKey (us ++ zs) kv.1 = true := by
        rw [hasKey_append, hku, Bool.true_or]
      rw [mergeVal_eq kv.2 hk, getKey_append_left _ hku,
        if_neg (by simp [hnonobj kv hm])]
    rw [List.map_congr_left hcg]
    exact assoc_reconstruct base us hkeys hnd
  rw [h1, h2]

/-- `absorb_setKey` lifted to `objSet` on a plain-object state. -/
theorem absorb_objSet {dl : List (String × JS)} {s : JS} {k : String} {v' : JS}
    (hwf : wfJS (.obj dl) = true)
    (hobj : isPlainObject s = true)
    (habs : deepMerge (.obj dl) s = s)
    (hkd : hasKey dl k = true)
    (hcond : (isPlainObject (getKey dl k) && isPlainObject v') = true →
        deepMerge (getKey dl k) v' = v') :
    deepMerge (.obj dl) (objSet s k v') = objSet s k v'
    ∧ isPlainObject (objSet s k v') = true := by
  cases s with
  | obj sl =>
    refine ⟨?_, rfl⟩
    show deepMerge (.obj dl) (.obj (setKey sl k v')) = .obj (setKey sl k v')
    rw [deepMerge_obj] at habs
    exact absorb_setKey hwf (by rw [deepMerge_obj]; exact habs) hkd hcond
  | null => simp [isPlainObject] at hobj
  | undefined => simp [isPlainObject] at hobj
  | bool b => simp [isPlainObject] at hobj
  | num q => simp [isPlainObject] at hobj
  | str t => simp [isPlainObject] at hobj
  | arr xs => simp [isPlainObject] at hobj

theorem step1_absorbs (iv : ℚ) (s : JS)
    (hobj : isPlainObject s = true)
    (habs : deepMerge defaultStateJS s = s) :
    deepMerge defaultStateJS (migrateStep1 iv s) = migrateStep1 iv s
    ∧ isPlainObject (migrateStep1 iv s) = true := by
  unfold migrateStep1
  by_cases hc : iv < 1
  · rw [if_pos hc]
    refine absorb_objSet (by decide) hobj habs (by decide) ?_
    intro hcnd
    rw [show getKey defaultStateEntries "potionRowDetailsOpen" = .obj potionRowDefaults
      from rfl]
    exact absorb_objLit _ (by decide) (by decide)
  · rw [if_neg hc]
    exact ⟨habs, hobj⟩

theorem step2_absorbs (iv : ℚ) (s : JS)
    (hobj : isPlainObject s = true)
    (habs : deepMerge defaultStateJS s = s) :
    deepMerge defaultStateJS (migrateStep2 defaultStateJS iv s)
      = migrateStep2 defaultStateJS iv s
    ∧ isPlainObject (migrateStep2 defaultStateJS iv s) = true := by
  unfold migrateStep2
  by_cases hc : iv < 2
  · rw [if_pos hc]
    refine absorb_objSet (by decide) hobj habs (by decide) ?_
    intro hcnd
    rw [show getKey defaultStateEntries "prices" = .obj pricesDefaults from rfl]
    rw [show getProp defaultStateJS "prices" = .obj pricesDefaults from rfl]
    exact absorb pricesDefaults _ (by decide)
  · rw [if_neg hc]
    exact ⟨habs, hobj⟩

theorem step3_absorbs (iv : ℚ) (s : JS)
    (hobj : isPlainObject s = true)
    (habs : deepMerge defaultStateJS s = s) :
    deepMerge defaultStateJS (migrateStep3 iv s) = migrateStep3 iv s
    ∧ isPlainObject (migrateStep3 iv s) = true := by
  unfold migrateStep3
  by_cases hc : iv < 3
  · rw [if_pos hc]
    refine absorb_objSet (by decide) hobj habs (by decide) ?_
    intro hcnd
    rw [show getKey defaultStateEntries "feedbacks" = .obj feedbacksDefaults from rfl]
    exact absorb_objLit _ (by decide) (by decide)
  · rw [if_neg hc]
    exact ⟨habs, hobj⟩

theorem step4_absorbs (iv : ℚ) (s : JS)
    (hobj : isPlainObject s = true)
    (habs : deepMerge defaultStateJS s = s) :
    deepMerge defaultStateJS (migrateStep4 iv s) = migrateStep4 iv s
    ∧ isPlainObject (migrateStep4 iv s) = true := by
  unfold migrateStep4
  by_cases hc : iv < 4
  · rw [if_pos hc]
    refine absorb_objSet (by decide) hobj habs (by decide) ?_
    intro hcnd
    simp [isPlainObject] at hcnd
  · rw [if_neg hc]
    exact ⟨habs, hobj⟩

/-- Shape of every `migrateState` output against the current defaults: a plain
object carrying `schemaVersion = 4` that the defaults absorb. -/
theorem migrate_out_spec (raw : JS) :
    ∃ ml, migrateState raw defaultStateJS = .obj ml
      ∧ hasKey ml "schemaVersion" = true
      ∧ getKey ml "schemaVersion" = .num 4
      ∧ deepMerge defaultStateJS (.obj ml) = .obj ml := by
  obtain ⟨il, hil⟩ : ∃ il, (if isPlainObject raw then raw else JS.obj []) = .obj il := by
    cases raw with
    | obj kvs => exact ⟨kvs, by simp [isPlainObject]⟩
    | null => exact ⟨[], by simp [isPlainObject]⟩
    | undefined => exact ⟨[], by simp [isPlainObject]⟩
    | bool b => exact ⟨[], by simp [isPlainObject]⟩
    | num q => exact ⟨[], by simp [isPlainObject]⟩
    | str t => exact ⟨[], by simp [isPlainObject]⟩
    | arr xs => exact ⟨[], by simp [isPlainObject]⟩
  unfold migrateState
  rw [hil]
  unfold migrateBody
  generalize incomingVersionOf (.obj il) = iv
  have h0 : deepMerge defaultStateJS (deepMerge defaultStateJS (.obj il))
      = deepMerge defaultStateJS (.obj il) := absorb defaultStateEntries il (by decide)
  have h0o : isPlainObject (deepMerge defaultStateJS (.obj il)) = true :=
    isPlainObject_deepMerge rfl rfl
  obtain ⟨h1, h1o⟩ := step1_absorbs iv _ h0o h0
  obtain ⟨h2, h2o⟩ := step2_absorbs iv _ h1o h1
  obtain ⟨h3, h3o⟩ := step3_absorbs iv _ h2o h2
  obtain ⟨h4, h4o⟩ := step4_absorbs iv _ h3o h3
  set s4 := migrateStep4 iv
    (migrateStep3 iv
      (migrateStep2 defaultStateJS iv
        (migrateStep1 iv (deepMerge defaultStateJS (.obj il))))) with hs4
  cases hcase : s4 with
  | obj s4l =>
    refine ⟨setKey s4l "schemaVersion" (.num 4), ?_, hasKey_setKey_self _ _ _,
      getKey_setKey_self _ _ _, ?_⟩
    · rfl
    · rw [hcase] at h4
      exact absorb_setKey (by decide) h4 (by decide)
        (fun hcnd => by simp [isPlainObject] at hcnd)
  | null => rw [hcase] at h4o; simp [isPlainObject] at h4o
  | undefined => rw [hcase] at h4o; simp [isPlainObject] at h4o
  | bool b => rw [hcase] at h4o; simp [isPlainObject] at h4o
  | num q => rw [hcase] at h4o; simp [isPlainObject] at h4o
  | str t => rw [hcase] at h4o; simp [isPlainObject] at h4o
  | arr xs => rw [hcase] at h4o; simp [isPlainObject] at h4o

/-- C5: migration against the current default document is idempotent — for
every well-formed raw input (a plain object, `null`, or `undefined`),
migrating a migrated document once more reproduces it exactly (hence also
deep-equally). -/
theorem c5_migrate_idempotent (raw : JS)
    (h : isPlainObject raw = true ∨ raw = JS.null ∨ raw = JS.undefined) :
    migrateState (migrateState raw defaultStateJS) defaultStateJS
      = migrateState raw defaultStateJS := by
  obtain ⟨ml, hM, hk, hg, habs⟩ := migrate_out_spec raw
  rw [hM]
  unfold migrateState
  rw [show (if isPlainObject (JS.obj ml) then JS.obj ml else JS.obj []) = JS.obj ml from rfl]
  unfold migrateBody
  have hiv : incomingVersionOf (.obj ml) = 4 := by
    unfold incomingVersionOf
    rw [show getProp (JS.obj ml) "schemaVersion" = getKey ml "schemaVersion" from rfl, hg]
  rw [hiv]
  unfold migrateStep1 migrateStep2 migrateStep3 migrateStep4
  rw [if_neg (by norm_num : ¬(4 : ℚ) < 1), if_neg (by norm_num : ¬(4 : ℚ) < 2),
    if_neg (by norm_num : ¬(4 : ℚ) < 3), if_neg (by norm_num : ¬(4 : ℚ) < 4)]
  rw [habs]
  show JS.obj (setKey ml "schemaVersion" (getProp defaultStateJS "schemaVersion")) = JS.obj ml
  rw [show getProp defaultStateJS "schemaVersion" = JS.num 4 from rfl]
  rw [setKey_getKey_eq hg hk]

/-- Witness for C5 at the raw input `null` (a stored document that failed to
produce an object). -/
theorem c5_migrate_idempotent_witness :
    migrateState (migrateState JS.null defaultStateJS) defaultStateJS
      = migrateState JS.null defaultStateJS :=
  c5_migrate_idempotent JS.null (Or.inr (Or.inl rfl))

theorem isUndef_false_of_obj {x : JS} (h : isPlainObject x = true) : isUndefined x = false := by
  cases x <;> simp [isPlainObject, isUndefined] at h ⊢

theorem wfJS_no_undefined {v : JS} (h : wfJS v = true) : isUndefined v = false := by
  cases v <;> simp [wfJS, isUndefined] at h ⊢

theorem wfObjList_no_undefined {l : List (String × JS)} (h : wfObjList l = true) :
    ∀ kv ∈ l, isUndefined kv.2 = false :=
  fun _ hm => wfJS_no_undefined (wfObjList_val h hm)

theorem getKey_no_undefined {l : List (String × JS)} {k : String}
    (hvals : ∀ kv ∈ l, isUndefined kv.2 = false) (hk : hasKey l k = true) :
    isUndefined (getKey l k) = false :=
  hvals _ (getKey_mem hk)

theorem mergeVal_no_undefined {il : List (String × JS)} {k : String} {v : JS}
    (hv : isUndefined v = false) (hi : ∀ kv ∈ il, isUndefined kv.2 = false) :
    isUndefined (mergeVal v il k) = false := by
  by_cases hk : hasKey il k = true
  · rw [mergeVal_eq v hk]
    by_cases hobj : (isPlainObject v && isPlainObject (getKey il k)) = true
    · rw [if_pos hobj]
      exact isUndef_false_of_obj (isPlainObject_deepMerge
        ((Bool.and_eq_true _ _).mp hobj).1 ((Bool.and_eq_true _ _).mp hobj).2)
    · rw [if_neg hobj]
      exact getKey_no_undefined hi hk
  · rw [mergeVal_of_not v (by simpa using hk)]
    exact hv

theorem deepMerge_entries_no_undefined {dl il : List (String × JS)}
    (hd : ∀ kv ∈ dl, isUndefined kv.2 = false) (hi : ∀ kv ∈ il, isUndefined kv.2 = false) :
    ∀ kv ∈ mergeInto dl il ++ newEntries dl il, isUndefined kv.2 = false := by
  intro kv hm
  rcases List.mem_append.mp hm with hm | hm
  · rw [mergeInto_eq_map] at hm
    obtain ⟨kv0, hm0, rfl⟩ := List.mem_map.mp hm
    exact mergeVal_no_undefined (hd kv0 hm0) hi
  · exact hi kv (mem_newEntries hm).1

theorem hasKey_setKey_mono {sl : List (String × JS)} {key k : String} (v : JS)
    (h : hasKey sl k = true) : hasKey (setKey sl key v) k = true := by
  by_cases hkk : k = key
  · subst hkk
    exact hasKey_setKey_self sl k v
  · rw [hasKey_setKey_ne sl v hkk]
    exact h

theorem setKey_no_undefined {sl : List (String × JS)} {key : String} {v : JS}
    (hv : isUndefined v = false) (hvals : ∀ kv ∈ sl, isUndefined kv.2 = false) :
    ∀ kv ∈ setKey sl key v, isUndefined kv.2 = false := by
  intro kv hm
  rcases mem_setKey hm with h1 | h1
  · exact hvals kv h1
  · rw [h1]
    exact hv

theorem step1_fields (iv : ℚ) (s : JS)
    (hP : ∃ sl, s = .obj sl
      ∧ (∀ k, hasKey defaultStateEntries k = true → hasKey sl k = true)
      ∧ (∀ kv ∈ sl, isUndefined kv.2 = false)) :
    ∃ sl, migrateStep1 iv s = .obj sl
      ∧ (∀ k, hasKey defaultStateEntries k = true → hasKey sl k = true)
      ∧ (∀ kv ∈ sl, isUndefined kv.2 = false) := by
  obtain ⟨sl, rfl, hkeys, hvals⟩ := hP
  unfold migrateStep1
  by_cases hc : iv < 1
  · rw [if_pos hc]
    exact ⟨setKey sl "potionRowDetailsOpen" (potionRowPatch (.obj sl)), rfl,
      fun k hk => hasKey_setKey_mono _ (hkeys k hk), setKey_no_undefined rfl hvals⟩
  · rw [if_neg hc]
    exact ⟨sl, rfl, hkeys, hvals⟩

theorem step2_fields (iv : ℚ) (s : JS)
    (hP : ∃ sl, s = .obj sl
      ∧ (∀ k, hasKey defaultStateEntries k = true → hasKey sl k = true)
      ∧ (∀ kv ∈ sl, isUndefined kv.2 = false)) :
    ∃ sl, migrateStep2 defaultStateJS iv s = .obj sl
      ∧ (∀ k, hasKey defaultStateEntries k = true → hasKey sl k = true)
      ∧ (∀ kv ∈ sl, isUndefined kv.2 = false) := by
  obtain ⟨sl, rfl, hkeys, hvals⟩ := hP
  unfold migrateStep2
  by_cases hc : iv < 2
  · rw [if_pos hc]
    refine ⟨setKey sl "prices"
      (deepMerge (getProp defaultStateJS "prices")
        (.obj (normalizePrices (jsOr (getKey sl "prices") (.obj []))))), rfl,
      fun k hk => hasKey_setKey_mono _ (hkeys k hk), setKey_no_undefined ?_ hvals⟩
    rw [show getProp defaultStateJS "prices" = .obj pricesDefaults from rfl, deepMerge_obj]
    rfl
  · rw [if_neg hc]
    exact ⟨sl, rfl, hkeys, hvals⟩

theorem step3_fields (iv : ℚ) (s : JS)
    (hP : ∃ sl, s = .obj sl
      ∧ (∀ k, hasKey defaultStateEntries k = true → hasKey sl k = true)
      ∧ (∀ kv ∈ sl, isUndefined kv.2 = false)) :
    ∃ sl, migrateStep3 iv s = .obj sl
      ∧ (∀ k, hasKey defaultStateEntries k = true → hasKey sl k = true)
      ∧ (∀ kv ∈ sl, isUndefined kv.2 = false) := by
  obtain ⟨sl, rfl, hkeys, hvals⟩ := hP
  unfold migrateStep3
  by_cases hc : iv < 3
  · rw [if_pos hc]
    exact ⟨setKey sl "feedbacks" (feedbacksPatch (.obj sl)), rfl,
      fun k hk => hasKey_setKey_mono _ (hkeys k hk), setKey_no_undefined rfl hvals⟩
  · rw [if_neg hc]
    exact ⟨sl, rfl, hkeys, hvals⟩

theorem step4_fields (iv : ℚ) (s : JS)
    (hP : ∃ sl, s = .obj sl
      ∧ (∀ k, hasKey defaultStateEntries k = true → hasKey sl k = true)
      ∧ (∀ kv ∈ sl, isUndefined kv.2 = false)) :
    ∃ sl, migrateStep4 iv s = .obj sl
      ∧ (∀ k, hasKey defaultStateEntries k = true → hasKey sl k = true)
      ∧ (∀ kv ∈ sl, isUndefined kv.2 = false) := by
  obtain ⟨sl, rfl, hkeys, hvals⟩ := hP
  unfold migrateStep4
  by_cases hc : iv < 4
  · rw [if_pos hc]
    exact ⟨setKey sl "adminMode" (.bool false), rfl,
      fun k hk => hasKey_setKey_mono _ (hkeys k hk), setKey_no_undefined rfl hvals⟩
  · rw [if_neg hc]
    exact ⟨sl, rfl, hkeys, hvals⟩

/-- Field bookkeeping of every `migrateState` run against the current
defaults: the output is an object, keeps every default field present with a
defined (non-`undefined`) value, and carries `schemaVersion = 4`. -/
theorem migrate_out_fields (raw : JS)
    (hwfr : wfJS raw = true ∨ raw = JS.null ∨ raw = JS.undefined) :
    ∃ ml, migrateState raw defaultStateJS = .obj ml
      ∧ (∀ k, hasKey defaultStateEntries k = true → hasKey ml k = true)
      ∧ (∀ kv ∈ ml, isUndefined kv.2 = false)
      ∧ getKey ml "schemaVersion" = .num 4 := by
  obtain ⟨il, hil, hi⟩ : ∃ il, (if isPlainObject raw then raw else JS.obj []) = .obj il
      ∧ ∀ kv ∈ il, isUndefined kv.2 = false := by
    rcases hwfr with hwf | h | h
    · cases raw with
      | obj kvs =>
        exact ⟨kvs, by simp [isPlainObject], wfObjList_no_undefined (wfJS_obj_parts hwf).2⟩
      | null => exact ⟨[], by simp [isPlainObject], by simp⟩
      | undefined => exact ⟨[], by simp [isPlainObject], by simp⟩
      | bool b => exact ⟨[], by simp [isPlainObject], by simp⟩
      | num q => exact ⟨[], by simp [isPlainObject], by simp⟩
      | str t => exact ⟨[], by simp [isPlainObject], by simp⟩
      | arr xs => exact ⟨[], by simp [isPlainObject], by simp⟩
    · subst h
      exact ⟨[], by simp [isPlainObject], by simp⟩
    · subst h
      exact ⟨[], by simp [isPlainObject], by simp⟩
  unfold migrateState
  rw [hil]
  unfold migrateBody
  generalize incomingVersionOf (.obj il) = iv
  have hd : ∀ kv ∈ defaultStateEntries, isUndefined kv.2 = false := by decide
  have P0 : ∃ sl, deepMerge defaultStateJS (.obj il) = .obj sl
      ∧ (∀ k, hasKey defaultStateEntries k = true → hasKey sl k = true)
      ∧ (∀ kv ∈ sl, isUndefined kv.2 = false) := by
    refine ⟨mergeInto defaultStateEntries il ++ newEntries defaultStateEntries il,
      deepMerge_obj _ _, ?_, deepMerge_entries_no_undefined hd hi⟩
    intro k hk
    rw [hasKey_append]
    have hmi : hasKey (mergeInto defaultStateEntries il) k = true := by
      rw [hasKey_iff_mem_keys, keys_mergeInto]
      exact hasKey_iff_mem_keys.mp hk
    rw [hmi, Bool.true_or]
  obtain ⟨s0l, h0, h0k, h0v⟩ := P0
  obtain ⟨s1l, h1, h1k, h1v⟩ := step1_fields iv _ ⟨s0l, h0, h0k, h0v⟩
  obtain ⟨s2l, h2, h2k, h2v⟩ := step2_fields iv _ ⟨s1l, rfl, h1k, h1v⟩
  obtain ⟨s3l, h3, h3k, h3v⟩ := step3_fields iv _ ⟨s2l, rfl, h2k, h2v⟩
  obtain ⟨s4l, h4, h4k, h4v⟩ := step4_fields iv _ ⟨s3l, rfl, h3k, h3v⟩
  rw [h1, h2, h3, h4]
  exact ⟨setKey s4l "schemaVersion" (.num 4), rfl,
    fun k hk => hasKey_setKey_mono _ (h4k k hk),
    setKey_no_undefined rfl h4v,
    getKey_setKey_self _ _ _⟩

/-- C6: whatever well-formed raw document comes in — any JSON-representable
plain object (its `schemaVersion` may be 0, intermediate, current, absent, or
non-numeric), `null`, or `undefined` — the migrated document's
`schemaVersion` equals the defaults' version, and every field of the default
document is present and not `undefined` in the migrated document. -/
theorem c6_migrate_version_and_fields (raw : JS)
    (h : wfJS raw = true ∨ raw = JS.null ∨ raw = JS.undefined) :
    getProp (migrateState raw defaultStateJS) "schemaVersion"
      = getProp defaultStateJS "schemaVersion"
    ∧ ∀ k, hasKeyJS defaultStateJS k = true →
        hasKeyJS (migrateState raw defaultStateJS) k = true
        ∧ getProp (migrateState raw defaultStateJS) k ≠ JS.undefined := by
  obtain ⟨ml, hM, hkeys, hvals, hsv⟩ := migrate_out_fields raw h
  rw [hM]
  refine ⟨?_, ?_⟩
  · show getKey ml "schemaVersion" = getProp defaultStateJS "schemaVersion"
    rw [hsv]
    rfl
  · intro k hk
    have hk' : hasKey defaultStateEntries k = true := hk
    refine ⟨hkeys k hk', ?_⟩
    show getKey ml k ≠ JS.undefined
    have hnu := getKey_no_undefined hvals (hkeys k hk')
    intro he
    rw [he] at hnu
    simp [isUndefined] at hnu

/-- Witness for C6 at a raw document whose `schemaVersion` is non-numeric,
checked at the `adminMode` field (added by the v3 → v4 transform). -/
theorem c6_migrate_version_and_fields_witness :
    getProp (migrateState (JS.obj [("schemaVersion", JS.str "zzz")]) defaultStateJS)
        "schemaVersion" = getProp defaultStateJS "schemaVersion"
    ∧ hasKeyJS (migrateState (JS.obj [("schemaVersion", JS.str "zzz")]) defaultStateJS)
        "adminMode" = true
    ∧ getProp (migrateState (JS.obj [("schemaVersion", JS.str "zzz")]) defaultStateJS)
        "adminMode" ≠ JS.undefined := by
  have hc := c6_migrate_version_and_fields (JS.obj [("schemaVersion", JS.str "zzz")])
    (Or.inl (by decide))
  exact ⟨hc.1, (hc.2 "adminMode" (by decide)).1, (hc.2 "adminMode" (by decide)).2⟩

end MineCalc
